import Mathlib

/-!
# Endpoint health check: link extraction, redirect validation and status rewrite

A shallow embedding of `main.go`.  A Go `string` is a finite sequence of bytes;
it is modelled as a list of characters, one list element per byte.  The program
only ever compares bytes for equality (with each other and with ASCII
literals), so the element type plays no further role.
-/

namespace EndpointHealthCheck

/-- A Go string: the sequence of its bytes. -/
abbrev GoString := List Char

/-! ## The parts of package `strings` that `main.go` calls -/

namespace strings

/-- Go `strings.Contains(s, substr)`: `substr` occurs somewhere within `s`
(the empty string occurs in every string). -/
def Contains : GoString → GoString → Bool
  | [], substr => substr.isEmpty
  | c :: s, substr => substr.isPrefixOf (c :: s) || Contains s substr

/-- Go `strings.HasSuffix(s, suffix)`:
`len(s) >= len(suffix) && s[len(s)-len(suffix):] == suffix`. -/
def HasSuffix (s suffix : GoString) : Bool :=
  decide (suffix.length ≤ s.length) && (s.drop (s.length - suffix.length) == suffix)

/-- The scan of `strings.Replace(s, old, new, -1)` for a non-empty `old`: the
first argument counts the bytes of a match that are still to be skipped; when
it is zero and `old` starts at the current position the match is replaced by
`new` and the scan resumes behind it, otherwise the current byte is copied. -/
def replaceScan (old new : GoString) : Nat → GoString → GoString
  | _, [] => []
  | skip + 1, _ :: s => replaceScan old new skip s
  | 0, c :: s =>
    if old.isPrefixOf (c :: s) then new ++ replaceScan old new (old.length - 1) s
    else c :: replaceScan old new 0 s

/-- Go `strings.Replace(s, old, new, -1)` for a non-empty `old` (both call
sites pass a five or four letter literal): every non-overlapping occurrence of
`old`, found from the left, is replaced by `new`. -/
def Replace (s old new : GoString) : GoString :=
  replaceScan old new 0 s

end strings

/-! ## Data model -/

/-- The record `returnCheckerObj` of `main.go`. -/
structure returnCheckerObj where
  url : GoString
  message : GoString
  success : Bool
deriving DecidableEq, Repr

/-! ## `checkRedirect` -/

/-- What `http.Get(url)` followed by `ioutil.ReadAll(response.Body)` can do:
fail in the transport, fail while the body is read, or deliver a status code
and a body. -/
inductive HttpOutcome where
  | getError (err : GoString)
  | readError (statusCode : Nat) (err : GoString)
  | body (statusCode : Nat) (bodyBytes : GoString)
deriving DecidableEq, Repr

/-- The function `checkRedirect` of `main.go`; `HostURL` is the global of that
name and `httpGet` stands for the network, asked with the full URL. -/
def checkRedirect (HostURL : GoString) (httpGet : GoString → HttpOutcome)
    (url : GoString) : returnCheckerObj :=
  let fullURL := HostURL ++ url
  match httpGet fullURL with
  | .getError err => { url := url, message := err, success := false }
  | .readError _ err => { url := url, message := err, success := false }
  | .body _ bodyString =>
    if strings.HasSuffix fullURL "?wsdl".toList then
      if !strings.Contains bodyString "<wsdl:definitions".toList then
        { url := url
          message := "URL was ending with ?wsdl but did not contain <wsdl:definition!".toList
          success := false }
      else { url := url, message := bodyString, success := true }
    else if strings.HasSuffix fullURL ".xsd".toList then
      if !strings.Contains bodyString "<xs:schema".toList then
        { url := url
          message := "URL was ending with .xsd but did not contain <xs:schema!".toList
          success := false }
      else { url := url, message := bodyString, success := true }
    else { url := url, message := bodyString, success := true }

/-! ## `iterateResponse` -/

/-- The token types of `golang.org/x/net/html` that carry a token.  The
remaining type, `ErrorToken`, is what `Next` returns once the input is
exhausted; it is represented by the end of the token list. -/
inductive TokenType where
  | TextToken
  | StartTagToken
  | EndTagToken
  | SelfClosingTagToken
  | CommentToken
  | DoctypeToken
deriving DecidableEq, Repr

/-- What `iterateResponse` reads of a token: its type `tt`, as returned by
`z.Next()`, and `z.Token().Data`: for a tag `Data`
is the tag name, for text, comment and doctype tokens it is their text. -/
structure Token where
  tt : TokenType
  Data : GoString
deriving DecidableEq, Repr

/-- The loop of `iterateResponse` over the tokens `z` still to come, with the
list `urlList` built so far.  At the end of the list `z.Next()` is
`ErrorToken` and `z.Token().Data` is empty. -/
def iterateLoop : List Token → List GoString → List GoString
  | [], urlList => urlList
  | t :: z, urlList =>
    if t.Data = "td".toList ∧ t.tt ≠ TokenType.EndTagToken then
      match z with
      | [] => urlList
      | t2 :: z2 =>
        if t2.Data = "a".toList then
          match z2 with
          | [] => urlList ++ [[]]
          | t3 :: z3 => iterateLoop z3 (urlList ++ [t3.Data])
        else iterateLoop z2 urlList
    else iterateLoop z urlList

/-- The function `iterateResponse` of `main.go`. -/
def iterateResponse (z : List Token) : List GoString :=
  iterateLoop z []

/-! ## The rewrite loop of `main` -/

/-- The `if singleObj.success ... else if !singleObj.success ...` inside the
`switch` of `main`: the new value of `singleTag`. -/
def setGlyph (success : Bool) (singleTag : GoString) : GoString :=
  if success then strings.Replace singleTag "cross".toList "tick".toList
  else strings.Replace singleTag "tick".toList "cross".toList

/-- One pass of the `switch` in `main` for the result `singleObj`, on the pair
of `singleTag` and `foundURL`. -/
def tagCase (st : GoString × Bool) (singleObj : returnCheckerObj) : GoString × Bool :=
  if strings.Contains st.1 singleObj.url then (st.1, true)
  else if strings.Contains st.1 "ac:emoticon".toList && st.2 then
    (setGlyph singleObj.success st.1, false)
  else st

/-- The loop `for _, singleObj := range returnObjSlice` run on a complete
tag. -/
def rangeResults (returnObjSlice : List returnCheckerObj) (singleTag : GoString)
    (foundURL : Bool) : GoString × Bool :=
  returnObjSlice.foldl tagCase (singleTag, foundURL)

/-- The variables of the rewrite loop. -/
structure RewriteState where
  confluenceReturnData : GoString
  singleTag : GoString
  foundURL : Bool
deriving DecidableEq, Repr

/-- The body of the rewrite loop for the byte `singleChar`. -/
def rewriteStep (returnObjSlice : List returnCheckerObj) (st : RewriteState)
    (singleChar : Char) : RewriteState :=
  let singleTag := st.singleTag ++ [singleChar]
  if singleChar = '>' then
    let r := rangeResults returnObjSlice singleTag st.foundURL
    { confluenceReturnData := st.confluenceReturnData ++ r.1, singleTag := [], foundURL := r.2 }
  else { st with singleTag := singleTag }

/-- The rewrite loop of `main` run over the bytes `value` from the state
`st`. -/
def rewriteLoop (returnObjSlice : List returnCheckerObj) (value : GoString)
    (st : RewriteState) : RewriteState :=
  value.foldl (rewriteStep returnObjSlice) st

/-- The document that `main` sends back: `confluenceReturnData` after the
rewrite loop has run over `content.Body.Storage.Value`. -/
def rewrite (value : GoString) (returnObjSlice : List returnCheckerObj) : GoString :=
  (rewriteLoop returnObjSlice value ⟨[], [], false⟩).confluenceReturnData

/-! ## Notions used to state and prove the properties -/

/-- Two strings are comparable when one is a prefix of the other. -/
def comparable (a b : GoString) : Bool :=
  a.isPrefixOf b || b.isPrefixOf a

/-- An occurrence of `u` and an occurrence of `w` in one text can share a
byte: a non-empty end piece of one of the two is comparable with the other. -/
def overlap (u w : GoString) : Bool :=
  (u.tails.any fun t => !t.isEmpty && comparable t w) ||
    (w.tails.any fun t => !t.isEmpty && comparable t u)

/-- No proper non-empty end piece of `w` is also a start piece of `w`. -/
def unbordered (w : GoString) : Bool :=
  w.tails.all fun t => t.isEmpty || t == w || !t.isPrefixOf w

/-- The string `u` is empty or can overlap neither glyph name. -/
def keepsGlyph (u : GoString) : Bool :=
  u.isEmpty || (!overlap u "cross".toList && !overlap u "tick".toList)

/-- A sequence of glyph replacements, applied from the left. -/
def applyOps (ops : List Bool) (singleTag : GoString) : GoString :=
  ops.foldl (fun s b => setGlyph b s) singleTag

/-- The control flow of `rangeResults` on a tag of which only this is known:
`emoticon`, whether it contains `ac:emoticon`, and for every result whether it
contains the result's URL, paired with the result's `success`.  It returns the
replacements made, in order, and the final `foundURL`. -/
def control (emoticon : Bool) : List (Bool × Bool) → Bool → List Bool × Bool
  | [], foundURL => ([], foundURL)
  | (hasURL, success) :: rest, foundURL =>
    if hasURL then control emoticon rest true
    else if emoticon && foundURL then
      (success :: (control emoticon rest false).1, (control emoticon rest false).2)
    else control emoticon rest foundURL

/-- What `control` needs to know of the tag `singleTag`. -/
def pattern (returnObjSlice : List returnCheckerObj) (singleTag : GoString) :
    List (Bool × Bool) :=
  returnObjSlice.map fun obj => (strings.Contains singleTag obj.url, obj.success)

/-- The output that the rewrite loop adds when it runs over `value` with
`singleTag` and `foundURL` as given. -/
def rewriteFrom (returnObjSlice : List returnCheckerObj) (value singleTag : GoString)
    (foundURL : Bool) : GoString :=
  (rewriteLoop returnObjSlice value ⟨[], singleTag, foundURL⟩).confluenceReturnData

/-- A complete tag as the rewrite loop sees it: bytes up to and including the
first `>`. -/
def isSegment (s : GoString) : Bool :=
  s.getLast? == some '>' && !s.dropLast.contains '>'

/-- The `Data` read after one more `z.Next()`: that of the next token, and
empty once the input is exhausted. -/
def nextData : List Token → GoString
  | [] => []
  | t :: _ => t.Data

/-- The tokens of a table cell that holds an anchor and nothing else:
`<td><a ...>url</a></td>`.  The tokenizer has no text token for an empty
text: in `<td><a></a></td>` the end tag stands directly behind the anchor
tag. -/
def cell (url : GoString) : List Token :=
  [⟨TokenType.StartTagToken, "td".toList⟩, ⟨TokenType.StartTagToken, "a".toList⟩] ++
    (if url = [] then [] else [⟨TokenType.TextToken, url⟩]) ++
    [⟨TokenType.EndTagToken, "a".toList⟩, ⟨TokenType.EndTagToken, "td".toList⟩]

/-- No token of `filler` passes the test `tData == "td" && tt != html.EndTagToken`. -/
def inert (filler : List Token) : Bool :=
  filler.all fun t => !decide (t.Data = "td".toList ∧ t.tt ≠ TokenType.EndTagToken)

/-- The tokens of a document given by its cells in order, each with the
tokens that stand before it, and by the tokens behind the last cell. -/
def table (rows : List (List Token × GoString)) (tail : List Token) : List Token :=
  (rows.map fun r => r.1 ++ cell r.2).flatten ++ tail

/-- A table row as the report page holds it: a cell with the link, whose text
is the URL, and a cell with the status glyph. -/
def row (url glyph : GoString) : GoString :=
  "<tr><td><a href=\"".toList ++ url ++ "\">".toList ++ url ++
    "</a></td><td><ac:emoticon ac:name=\"".toList ++ glyph ++ "\"/></td></tr>".toList

/-- The document of two rows, for `/ok` and for `/broken`, with the glyphs
`g1` and `g2`. -/
def twoRows (g1 g2 : GoString) : GoString :=
  row "/ok".toList g1 ++ row "/broken".toList g2

namespace strings

theorem Contains_iff (s sub : GoString) : Contains s sub = true ↔ sub <:+: s := by
  induction s with
  | nil => simp [Contains, List.isEmpty_iff]
  | cons c s ih => simp [Contains, ih, List.infix_cons_iff]

theorem replaceScan_skip (old new : GoString) (k : Nat) (s : GoString) :
    replaceScan old new k s = replaceScan old new 0 (s.drop k) := by
  induction s generalizing k with
  | nil => simp [replaceScan]
  | cons c s ih =>
    cases k with
    | zero => simp
    | succ k => simp [replaceScan, ih k]

theorem Replace_nil (old new : GoString) : Replace [] old new = [] := by
  simp [Replace, replaceScan]

theorem Replace_append_of_ne_nil (old new s : GoString) (h : old ≠ []) :
    Replace (old ++ s) old new = new ++ Replace s old new := by
  cases old with
  | nil => exact absurd rfl h
  | cons a old =>
    have hp : (a :: old).isPrefixOf (a :: (old ++ s)) = true := by simp
    simp only [Replace, List.cons_append, replaceScan, hp, if_true]
    rw [replaceScan_skip]
    simp

theorem Replace_cons_of_no_match (old new s : GoString) (c : Char)
    (h : ¬ old <+: c :: s) : Replace (c :: s) old new = c :: Replace s old new := by
  have hp : old.isPrefixOf (c :: s) = false := by
    rw [Bool.eq_false_iff]; simpa using h
  simp [Replace, replaceScan, hp]

end strings

theorem not_comparable_of_overlap_left {u w t : GoString} (h : overlap u w = false)
    (ht : t <:+ u) (hne : t ≠ []) : ¬ (t <+: w ∨ w <+: t) := by
  intro hc
  have : overlap u w = true := by
    simp only [overlap, Bool.or_eq_true, List.any_eq_true, Bool.and_eq_true]
    left
    refine ⟨t, (List.mem_tails _ _).2 ht, ?_, ?_⟩
    · simpa [List.isEmpty_iff] using hne
    · simpa [comparable] using hc
  simp [h] at this

theorem not_comparable_of_overlap_right {u w t : GoString} (h : overlap u w = false)
    (ht : t <:+ w) (hne : t ≠ []) : ¬ (t <+: u ∨ u <+: t) := by
  intro hc
  have : overlap u w = true := by
    simp only [overlap, Bool.or_eq_true, List.any_eq_true, Bool.and_eq_true]
    right
    refine ⟨t, (List.mem_tails _ _).2 ht, ?_, ?_⟩
    · simpa [List.isEmpty_iff] using hne
    · simpa [comparable] using hc
  simp [h] at this

/-- An occurrence of `u` in `x ++ w ++ y` that cannot overlap `w` lies in `x`
or in `y`. -/
theorem infix_split {u w : GoString} (h : overlap u w = false) (x y : GoString)
    (hu : u <:+: x ++ w ++ y) : u <:+: x ∨ u <:+: y := by
  obtain ⟨a, b, hab⟩ := hu
  have hab2 : a ++ (u ++ b) = x ++ (w ++ y) := by simpa [List.append_assoc] using hab
  rcases List.append_eq_append_iff.1 hab2 with ⟨c, hx, hub⟩ | ⟨c, _, hwy⟩
  · -- the occurrence starts within `x`
    rcases List.append_eq_append_iff.1 hub with ⟨e, hc, _⟩ | ⟨e, hu2, hwy⟩
    · exact Or.inl ⟨a, e, by rw [hx, hc, List.append_assoc]⟩
    · by_cases he : e = []
      · subst he
        exact Or.inl ⟨a, [], by rw [hx, hu2]; simp⟩
      · exact absurd (List.prefix_or_prefix_of_prefix ⟨b, hwy.symm⟩ ⟨y, rfl⟩)
          (not_comparable_of_overlap_left h ⟨c, hu2.symm⟩ he)
  · -- the occurrence starts at or behind the start of `w`
    rcases List.append_eq_append_iff.1 hwy with ⟨e, _, hy⟩ | ⟨e, hw, hub⟩
    · exact Or.inr ⟨e, b, by rw [hy]; simp⟩
    · by_cases he : e = []
      · subst he
        exact Or.inr ⟨[], b, by simpa using hub⟩
      · exact absurd (List.prefix_or_prefix_of_prefix ⟨y, hub.symm⟩ ⟨b, rfl⟩)
          (not_comparable_of_overlap_right h ⟨c, hw.symm⟩ he)

theorem infix_split_iff {u w : GoString} (h : overlap u w = false) (x y : GoString) :
    u <:+: x ++ w ++ y ↔ u <:+: x ∨ u <:+: y := by
  constructor
  · exact infix_split h x y
  · rintro (hx | hy)
    · exact hx.trans ⟨[], w ++ y, by simp⟩
    · exact hy.trans ⟨x ++ w, [], by simp⟩

namespace strings

/-- Replacing `old` by `new` neither creates nor destroys an occurrence of a
string `u` that can overlap neither of the two. -/
theorem infix_Replace_iff {u old new : GoString} (hold : old ≠ [])
    (h1 : overlap u old = false) (h2 : overlap u new = false) :
    ∀ (n : Nat) (s : GoString), s.length ≤ n → ∀ x : GoString,
      (u <:+: x ++ Replace s old new ↔ u <:+: x ++ s) := by
  intro n
  induction n with
  | zero =>
    intro s hs x
    have : s = [] := List.eq_nil_of_length_eq_zero (Nat.le_zero.1 hs)
    subst this
    simp [Replace_nil]
  | succ n ih =>
    intro s hs x
    cases s with
    | nil => simp [Replace_nil]
    | cons c s =>
      by_cases hp : old <+: c :: s
      · obtain ⟨r, hr⟩ := hp
        have hlen : r.length ≤ n := by
          have h3 := congrArg List.length hr
          have h4 : 0 < old.length := List.length_pos.2 hold
          simp only [List.length_append, List.length_cons] at h3 hs
          omega
        rw [← hr, Replace_append_of_ne_nil old new r hold]
        have e1 : x ++ (new ++ Replace r old new) = (x ++ new) ++ Replace r old new := by simp
        rw [e1, ih r hlen (x ++ new)]
        have e2 : x ++ (old ++ r) = x ++ old ++ r := by simp
        rw [e2, infix_split_iff h1, infix_split_iff h2]
      · have hlen : s.length ≤ n := by simpa using hs
        rw [Replace_cons_of_no_match old new s c hp]
        have e1 : x ++ c :: Replace s old new = (x ++ [c]) ++ Replace s old new := by simp
        have e2 : x ++ c :: s = (x ++ [c]) ++ s := by simp
        rw [e1, e2, ih s hlen (x ++ [c])]

theorem Contains_Replace {u old new : GoString} (hold : old ≠ [])
    (h1 : overlap u old = false) (h2 : overlap u new = false) (s : GoString) :
    Contains (Replace s old new) u = Contains s u := by
  rw [Bool.eq_iff_iff, Contains_iff, Contains_iff]
  simpa using infix_Replace_iff hold h1 h2 s.length s (Nat.le_refl _) []

/-- A string without an occurrence of `old` is left alone. -/
theorem Replace_of_absent (old new : GoString) :
    ∀ s : GoString, ¬ old <:+: s → Replace s old new = s := by
  intro s
  induction s with
  | nil => intro _; exact Replace_nil old new
  | cons c s ih =>
    intro h
    have hp : ¬ old <+: c :: s := fun hp => h hp.isInfix
    have hs : ¬ old <:+: s := fun hs => h (hs.trans (List.infix_cons (List.infix_refl s)))
    rw [Replace_cons_of_no_match old new s c hp, ih hs]

theorem not_infix_Replace_aux {old new : GoString} (hold : old ≠ [])
    (h : overlap old new = false) :
    ∀ (n : Nat) (s : GoString), s.length ≤ n → ∀ x : GoString,
      (∀ a b : GoString, x ++ s = a ++ (old ++ b) → x.length ≤ a.length) →
      ¬ old <:+: x ++ Replace s old new := by
  have hpos : 0 < old.length := List.length_pos.2 hold
  have key : ∀ (x s : GoString),
      (∀ a b : GoString, x ++ s = a ++ (old ++ b) → x.length ≤ a.length) → ¬ old <:+: x := by
    intro x s H ⟨a, b, hab⟩
    have h1 := H a (b ++ s) (by rw [← hab]; simp)
    have h2 := congrArg List.length hab
    simp only [List.length_append] at h2
    omega
  intro n
  induction n with
  | zero =>
    intro s hs x H
    have : s = [] := List.eq_nil_of_length_eq_zero (Nat.le_zero.1 hs)
    subst this
    rw [Replace_nil, List.append_nil]
    exact key x [] H
  | succ n ih =>
    intro s hs x H
    cases s with
    | nil =>
      rw [Replace_nil, List.append_nil]
      exact key x [] H
    | cons c s =>
      by_cases hp : old <+: c :: s
      · obtain ⟨r, hr⟩ := hp
        have hlen : r.length ≤ n := by
          have h3 := congrArg List.length hr
          simp only [List.length_append, List.length_cons] at h3 hs
          omega
        rw [← hr, Replace_append_of_ne_nil old new r hold]
        have e1 : x ++ (new ++ Replace r old new) = x ++ new ++ Replace r old new := by simp
        rw [e1, infix_split_iff h]
        rintro (hx | hr2)
        · exact key x (c :: s) H hx
        · exact ih r hlen [] (fun a b _ => Nat.zero_le _) (by simpa using hr2)
      · have hlen : s.length ≤ n := by simpa using hs
        rw [Replace_cons_of_no_match old new s c hp]
        have e1 : x ++ c :: Replace s old new = (x ++ [c]) ++ Replace s old new := by simp
        rw [e1]
        apply ih s hlen (x ++ [c])
        intro a b hab
        have hab2 : x ++ c :: s = a ++ (old ++ b) := by simpa using hab
        have h1 := H a b hab2
        rcases Nat.lt_or_ge x.length a.length with hlt | hge
        · simpa using hlt
        · exfalso
          have hxa : x.length = a.length := Nat.le_antisymm h1 hge
          have := List.append_inj hab2 hxa
          exact hp ⟨b, this.2.symm⟩

/-- After the replacement no occurrence of `old` is left, when `old` and `new`
cannot overlap. -/
theorem not_infix_Replace {old new : GoString} (hold : old ≠ [])
    (h : overlap old new = false) (s : GoString) : ¬ old <:+: Replace s old new := by
  simpa using not_infix_Replace_aux hold h s.length s (Nat.le_refl _) []
    (fun a b _ => Nat.zero_le _)

theorem eq_of_unbordered {w t : GoString} (h : unbordered w = true) (ht : t <:+ w)
    (hne : t ≠ []) (hp : t <+: w) : t = w := by
  have h1 := (List.all_eq_true.1 h) t ((List.mem_tails _ _).2 ht)
  have hp2 : t.isPrefixOf w = true := by simpa using hp
  simpa [List.isEmpty_iff, hne, hp2] using h1

/-- A start of the replaced string that is an end piece of `new` was already
there, or is the `new` written for an `old` at the start. -/
theorem prefix_Replace {old new : GoString} (hold : old ≠ []) (hb : unbordered new = true) :
    ∀ (x t : GoString), t ≠ [] → t <:+ new → t <+: Replace x old new →
      t <+: x ∨ (t = new ∧ old <+: x) := by
  intro x
  induction x with
  | nil =>
    intro t hne _ hp
    rw [Replace_nil] at hp
    exact absurd (List.prefix_nil.1 hp) hne
  | cons c x ih =>
    intro t hne hsuf hp
    by_cases hold2 : old <+: c :: x
    · right
      refine ⟨?_, hold2⟩
      obtain ⟨r, hr⟩ := hold2
      rw [← hr, Replace_append_of_ne_nil old new r hold] at hp
      rcases List.prefix_or_prefix_of_prefix hp (List.prefix_append new _) with h1 | h1
      · exact eq_of_unbordered hb hsuf hne h1
      · exact (List.IsPrefix.eq_of_length_le h1 hsuf.length_le).symm
    · left
      rw [Replace_cons_of_no_match old new x c hold2] at hp
      cases t with
      | nil => exact absurd rfl hne
      | cons d t =>
        rw [List.cons_prefix_cons] at hp ⊢
        refine ⟨hp.1, ?_⟩
        by_cases ht : t = []
        · subst ht; exact List.nil_prefix
        · have hsuf2 : t <:+ new := (List.suffix_cons d t).trans hsuf
          rcases ih t ht hsuf2 hp.2 with h1 | ⟨h1, _⟩
          · exact h1
          · exfalso
            have := hsuf.length_le
            rw [h1] at this
            simp at this

/-- Replacing `old` by `new` and then `new` by `old` gives back a string that
had no occurrence of `new`. -/
theorem Replace_Replace_aux {old new : GoString} (hold : old ≠ []) (hnew : new ≠ [])
    (hb : unbordered new = true) :
    ∀ (n : Nat) (x : GoString), x.length ≤ n → ¬ new <:+: x →
      Replace (Replace x old new) new old = x := by
  intro n
  induction n with
  | zero =>
    intro x hx _
    have : x = [] := List.eq_nil_of_length_eq_zero (Nat.le_zero.1 hx)
    subst this
    simp [Replace_nil]
  | succ n ih =>
    intro x hx hfree
    cases x with
    | nil => simp [Replace_nil]
    | cons c x =>
      by_cases hp : old <+: c :: x
      · obtain ⟨r, hr⟩ := hp
        have hlen : r.length ≤ n := by
          have h3 := congrArg List.length hr
          have h4 : 0 < old.length := List.length_pos.2 hold
          simp only [List.length_append, List.length_cons] at h3 hx
          omega
        have hr2 : ¬ new <:+: r := fun h => hfree (hr ▸ h.trans (List.suffix_append old r).isInfix)
        rw [← hr, Replace_append_of_ne_nil old new r hold,
          Replace_append_of_ne_nil new old _ hnew, ih r hlen hr2]
      · have hlen : x.length ≤ n := by simpa using hx
        have hx2 : ¬ new <:+: x :=
          fun h => hfree (h.trans (List.infix_cons (List.infix_refl x)))
        have hnp : ¬ new <+: c :: Replace x old new := by
          intro h
          rw [← Replace_cons_of_no_match old new x c hp] at h
          rcases prefix_Replace hold hb (c :: x) new hnew (List.suffix_refl new) h with h1 | h1
          · exact hfree h1.isInfix
          · exact hp h1.2
        rw [Replace_cons_of_no_match old new x c hp,
          Replace_cons_of_no_match new old _ c hnp, ih x hlen hx2]

theorem Replace_Replace {old new : GoString} (hold : old ≠ []) (hnew : new ≠ [])
    (hb : unbordered new = true) (x : GoString) (h : ¬ new <:+: x) :
    Replace (Replace x old new) new old = x :=
  Replace_Replace_aux hold hnew hb x.length x (Nat.le_refl _) h

/-- A byte that does not occur in `old` and ends the string stays at the end. -/
theorem Replace_concat {old new : GoString} (hold : old ≠ []) {g : Char} (hg : g ∉ old) :
    ∀ (n : Nat) (s : GoString), s.length ≤ n →
      Replace (s ++ [g]) old new = Replace s old new ++ [g] := by
  have hnp : ∀ s : GoString, ¬ old <+: s → ¬ old <+: s ++ [g] := by
    intro s hs h
    rcases List.prefix_concat_iff.1 h with h1 | h1
    · exact hg (h1 ▸ by simp)
    · exact hs h1
  intro n
  induction n with
  | zero =>
    intro s hs
    have : s = [] := List.eq_nil_of_length_eq_zero (Nat.le_zero.1 hs)
    subst this
    have h0 : ¬ old <+: ([] : GoString) := fun h => hold (List.prefix_nil.1 h)
    have := hnp [] h0
    simp only [List.nil_append] at this ⊢
    rw [Replace_cons_of_no_match old new [] g this, Replace_nil, List.nil_append]
  | succ n ih =>
    intro s hs
    cases s with
    | nil =>
      have h0 : ¬ old <+: ([] : GoString) := fun h => hold (List.prefix_nil.1 h)
      have := hnp [] h0
      simp only [List.nil_append] at this ⊢
      rw [Replace_cons_of_no_match old new [] g this, Replace_nil, List.nil_append]
    | cons c s =>
      by_cases hp : old <+: c :: s
      · obtain ⟨r, hr⟩ := hp
        have hlen : r.length ≤ n := by
          have h3 := congrArg List.length hr
          have h4 : 0 < old.length := List.length_pos.2 hold
          simp only [List.length_append, List.length_cons] at h3 hs
          omega
        rw [← hr, List.append_assoc, Replace_append_of_ne_nil old new _ hold,
          Replace_append_of_ne_nil old new _ hold, ih r hlen, List.append_assoc]
      · have hlen : s.length ≤ n := by simpa using hs
        have := hnp (c :: s) hp
        rw [List.cons_append] at this ⊢
        rw [Replace_cons_of_no_match old new _ c this,
          Replace_cons_of_no_match old new s c hp, ih s hlen, List.cons_append]

/-- A byte that occurs neither in the string nor in `new` does not occur in the
result. -/
theorem not_mem_Replace {old new : GoString} (hold : old ≠ []) {g : Char} (hg : g ∉ new) :
    ∀ (n : Nat) (s : GoString), s.length ≤ n → g ∉ s → g ∉ Replace s old new := by
  intro n
  induction n with
  | zero =>
    intro s hs _
    have : s = [] := List.eq_nil_of_length_eq_zero (Nat.le_zero.1 hs)
    subst this
    simp [Replace_nil]
  | succ n ih =>
    intro s hs hgs
    cases s with
    | nil => simp [Replace_nil]
    | cons c s =>
      by_cases hp : old <+: c :: s
      · obtain ⟨r, hr⟩ := hp
        have hlen : r.length ≤ n := by
          have h3 := congrArg List.length hr
          have h4 : 0 < old.length := List.length_pos.2 hold
          simp only [List.length_append, List.length_cons] at h3 hs
          omega
        have hgr : g ∉ r := fun h => hgs (hr ▸ List.mem_append_right old h)
        rw [← hr, Replace_append_of_ne_nil old new r hold, List.mem_append]
        rintro (h | h)
        · exact hg h
        · exact ih r hlen hgr h
      · have hlen : s.length ≤ n := by simpa using hs
        rw [Replace_cons_of_no_match old new s c hp, List.mem_cons]
        rintro (h | h)
        · exact hgs (h ▸ List.mem_cons_self _ _)
        · exact ih s hlen (fun h2 => hgs (List.mem_cons_of_mem _ h2)) h

end strings

/-! ### The two glyph replacements -/

theorem setGlyph_idem (b : Bool) (t : GoString) : setGlyph b (setGlyph b t) = setGlyph b t := by
  cases b
  · exact strings.Replace_of_absent _ _ _
      (strings.not_infix_Replace (by decide) (by decide) t)
  · exact strings.Replace_of_absent _ _ _
      (strings.not_infix_Replace (by decide) (by decide) t)

theorem setGlyph_not_setGlyph (b : Bool) (t : GoString) :
    setGlyph b (setGlyph (!b) (setGlyph b t)) = setGlyph b t := by
  cases b
  · exact strings.Replace_Replace (by decide) (by decide) (by decide) _
      (strings.not_infix_Replace (by decide) (by decide) t)
  · exact strings.Replace_Replace (by decide) (by decide) (by decide) _
      (strings.not_infix_Replace (by decide) (by decide) t)

theorem Contains_setGlyph {u : GoString} (hu : keepsGlyph u = true) (b : Bool) (t : GoString) :
    strings.Contains (setGlyph b t) u = strings.Contains t u := by
  simp only [keepsGlyph, Bool.or_eq_true, Bool.and_eq_true, Bool.not_eq_true',
    List.isEmpty_iff] at hu
  rcases hu with hu | hu
  · subst hu
    rw [Bool.eq_iff_iff, strings.Contains_iff, strings.Contains_iff]
    simp
  · cases b
    · exact strings.Contains_Replace (by decide) hu.2 hu.1 t
    · exact strings.Contains_Replace (by decide) hu.1 hu.2 t

theorem setGlyph_concat (b : Bool) (s : GoString) :
    setGlyph b (s ++ ['>']) = setGlyph b s ++ ['>'] := by
  cases b
  · exact strings.Replace_concat (by decide) (by decide) s.length s (Nat.le_refl _)
  · exact strings.Replace_concat (by decide) (by decide) s.length s (Nat.le_refl _)

theorem not_mem_setGlyph (b : Bool) (s : GoString) (h : '>' ∉ s) : '>' ∉ setGlyph b s := by
  cases b
  · exact strings.not_mem_Replace (by decide) (by decide) s.length s (Nat.le_refl _) h
  · exact strings.not_mem_Replace (by decide) (by decide) s.length s (Nat.le_refl _) h

theorem applyOps_append (ops1 ops2 : List Bool) (t : GoString) :
    applyOps (ops1 ++ ops2) t = applyOps ops2 (applyOps ops1 t) := by
  simp [applyOps, List.foldl_append]

theorem applyOps_cons (b : Bool) (ops : List Bool) (t : GoString) :
    applyOps (b :: ops) t = applyOps ops (setGlyph b t) := rfl

theorem Contains_applyOps {u : GoString} (hu : keepsGlyph u = true) (ops : List Bool) :
    ∀ t : GoString, strings.Contains (applyOps ops t) u = strings.Contains t u := by
  induction ops with
  | nil => intro t; rfl
  | cons b ops ih => intro t; rw [applyOps_cons, ih, Contains_setGlyph hu]

theorem applyOps_concat (ops : List Bool) :
    ∀ s : GoString, applyOps ops (s ++ ['>']) = applyOps ops s ++ ['>'] := by
  induction ops with
  | nil => intro s; rfl
  | cons b ops ih => intro s; rw [applyOps_cons, setGlyph_concat, ih, applyOps_cons]

theorem not_mem_applyOps (ops : List Bool) :
    ∀ s : GoString, '>' ∉ s → '>' ∉ applyOps ops s := by
  induction ops with
  | nil => intro s h; exact h
  | cons b ops ih => intro s h; rw [applyOps_cons]; exact ih _ (not_mem_setGlyph b s h)

/-- Once a tag is the result of the replacement `b`, further replacements move
it between itself and its image under the other replacement only. -/
theorem applyOps_orbit (b : Bool) (z : GoString) (ops : List Bool) :
    applyOps ops (setGlyph b z) = setGlyph b z ∨
      applyOps ops (setGlyph b z) = setGlyph (!b) (setGlyph b z) := by
  induction ops using List.reverseRecOn with
  | nil => exact Or.inl rfl
  | append_singleton ops c ih =>
    rw [applyOps_append]
    have hc : ∀ t, applyOps [c] t = setGlyph c t := fun _ => rfl
    rw [hc]
    by_cases hcb : c = b
    · subst hcb
      rcases ih with h | h
      · rw [h]; exact Or.inl (setGlyph_idem _ _)
      · rw [h]; exact Or.inl (setGlyph_not_setGlyph _ _)
    · have hcb2 : c = !b := by cases c <;> cases b <;> simp_all
      subst hcb2
      rcases ih with h | h
      · rw [h]; exact Or.inr rfl
      · rw [h]; exact Or.inr (setGlyph_idem _ _)

/-- A sequence of replacements applied a second time changes nothing. -/
theorem applyOps_idem (ops : List Bool) (t : GoString) :
    applyOps ops (applyOps ops t) = applyOps ops t := by
  rcases List.eq_nil_or_concat ops with h | ⟨ops0, b, h⟩
  · subst h; rfl
  · subst h
    rw [List.concat_eq_append]
    have hc : ∀ s, applyOps (ops0 ++ [b]) s = setGlyph b (applyOps ops0 s) := by
      intro s; rw [applyOps_append]; rfl
    rw [hc t, hc (setGlyph b (applyOps ops0 t))]
    rcases applyOps_orbit b (applyOps ops0 t) ops0 with h | h
    · rw [h]; exact setGlyph_idem _ _
    · rw [h]; exact setGlyph_not_setGlyph _ _

/-! ### The loop over the results -/

theorem rangeResults_cons (obj : returnCheckerObj) (rs : List returnCheckerObj)
    (t : GoString) (f : Bool) :
    rangeResults (obj :: rs) t f =
      rangeResults rs (tagCase (t, f) obj).1 (tagCase (t, f) obj).2 := rfl

theorem pattern_setGlyph {rs : List returnCheckerObj}
    (hrs : ∀ obj ∈ rs, keepsGlyph obj.url = true) (b : Bool) (t : GoString) :
    pattern rs (setGlyph b t) = pattern rs t := by
  simp only [pattern]
  apply List.map_congr_left
  intro obj hobj
  rw [Contains_setGlyph (hrs obj hobj)]

theorem pattern_applyOps {rs : List returnCheckerObj}
    (hrs : ∀ obj ∈ rs, keepsGlyph obj.url = true) (ops : List Bool) (t : GoString) :
    pattern rs (applyOps ops t) = pattern rs t := by
  simp only [pattern]
  apply List.map_congr_left
  intro obj hobj
  rw [Contains_applyOps (hrs obj hobj)]

/-- With URLs that cannot overlap a glyph name, the loop over the results is
`control` run on what the tag contains at the start. -/
theorem rangeResults_eq_control :
    ∀ (rs : List returnCheckerObj), (∀ obj ∈ rs, keepsGlyph obj.url = true) →
      ∀ (t : GoString) (f : Bool),
        rangeResults rs t f =
          (applyOps (control (strings.Contains t "ac:emoticon".toList) (pattern rs t) f).1 t,
            (control (strings.Contains t "ac:emoticon".toList) (pattern rs t) f).2) := by
  intro rs
  induction rs with
  | nil => intro _ t f; rfl
  | cons obj rs ih =>
    intro hrs t f
    have hrs2 : ∀ o ∈ rs, keepsGlyph o.url = true :=
      fun o ho => hrs o (List.mem_cons_of_mem _ ho)
    have hm : keepsGlyph "ac:emoticon".toList = true := by decide
    rw [rangeResults_cons]
    by_cases h1 : strings.Contains t obj.url = true
    · simp only [tagCase, h1, if_true, pattern, List.map_cons, control]
      exact ih hrs2 t true
    · by_cases h2 : (strings.Contains t "ac:emoticon".toList && f) = true
      · simp only [tagCase, h1, h2, if_true, if_false, pattern, List.map_cons, control,
          Bool.false_eq_true]
        rw [ih hrs2, Contains_setGlyph hm, applyOps_cons, pattern_setGlyph hrs2]
        rfl
      · simp only [tagCase, h1, h2, if_false, pattern, List.map_cons, control,
          Bool.false_eq_true]
        exact ih hrs2 t f

/-- The loop over the results, run again on its own result with the same
`foundURL`, changes nothing. -/
theorem rangeResults_idem (rs : List returnCheckerObj)
    (hrs : ∀ obj ∈ rs, keepsGlyph obj.url = true) (t : GoString) (f : Bool) :
    rangeResults rs (rangeResults rs t f).1 f = rangeResults rs t f := by
  have hm : keepsGlyph "ac:emoticon".toList = true := by decide
  rw [rangeResults_eq_control rs hrs t f]
  simp only
  rw [rangeResults_eq_control rs hrs _ f, Contains_applyOps hm, pattern_applyOps hrs,
    applyOps_idem]

/-! ### The loop over the bytes -/

theorem rewriteLoop_cons (rs : List returnCheckerObj) (c : Char) (v : GoString)
    (st : RewriteState) :
    rewriteLoop rs (c :: v) st = rewriteLoop rs v (rewriteStep rs st c) := rfl

theorem rewriteLoop_out (rs : List returnCheckerObj) :
    ∀ (v : GoString) (st : RewriteState),
      (rewriteLoop rs v st).confluenceReturnData =
        st.confluenceReturnData ++ rewriteFrom rs v st.singleTag st.foundURL := by
  intro v
  induction v with
  | nil => intro st; simp [rewriteFrom, rewriteLoop]
  | cons c v ih =>
    intro st
    have e : rewriteFrom rs (c :: v) st.singleTag st.foundURL =
        (rewriteLoop rs v
          (rewriteStep rs ⟨[], st.singleTag, st.foundURL⟩ c)).confluenceReturnData := rfl
    rw [rewriteLoop_cons, ih, e, ih]
    by_cases hc : c = '>'
    · simp [rewriteStep, hc]
    · simp [rewriteStep, hc]

theorem rewriteFrom_cons_gt (rs : List returnCheckerObj) (v tag : GoString) (f : Bool) :
    rewriteFrom rs ('>' :: v) tag f =
      (rangeResults rs (tag ++ ['>']) f).1 ++
        rewriteFrom rs v [] (rangeResults rs (tag ++ ['>']) f).2 := by
  rw [rewriteFrom, rewriteLoop_cons, rewriteLoop_out]
  simp [rewriteStep]

theorem rewriteFrom_cons_ne (rs : List returnCheckerObj) (c : Char) (hc : c ≠ '>')
    (v tag : GoString) (f : Bool) :
    rewriteFrom rs (c :: v) tag f = rewriteFrom rs v (tag ++ [c]) f := by
  rw [rewriteFrom, rewriteLoop_cons, rewriteLoop_out]
  simp [rewriteStep, hc]

/-- The loop run over a complete tag and what follows it. -/
theorem rewriteFrom_segment (rs : List returnCheckerObj) (v : GoString) (f : Bool) :
    ∀ (body tag : GoString), '>' ∉ body →
      rewriteFrom rs (body ++ '>' :: v) tag f =
        (rangeResults rs (tag ++ body ++ ['>']) f).1 ++
          rewriteFrom rs v [] (rangeResults rs (tag ++ body ++ ['>']) f).2 := by
  intro body
  induction body with
  | nil => intro tag _; simpa using rewriteFrom_cons_gt rs v tag f
  | cons c body ih =>
    intro tag h
    have hc : c ≠ '>' := fun e => h (e ▸ List.mem_cons_self _ _)
    have hb : '>' ∉ body := fun e => h (List.mem_cons_of_mem _ e)
    rw [List.cons_append, rewriteFrom_cons_ne rs c hc, ih (tag ++ [c]) hb]
    simp

/-- The tag that the loop over the results returns is the tag it was given
after some glyph replacements. -/
theorem rangeResults_applyOps :
    ∀ (rs : List returnCheckerObj) (t : GoString) (f : Bool),
      ∃ ops : List Bool, (rangeResults rs t f).1 = applyOps ops t := by
  intro rs
  induction rs with
  | nil => intro t f; exact ⟨[], rfl⟩
  | cons obj rs ih =>
    intro t f
    rw [rangeResults_cons]
    by_cases h1 : strings.Contains t obj.url = true
    · simp only [tagCase, h1, if_true]
      exact ih t true
    · by_cases h2 : (strings.Contains t "ac:emoticon".toList && f) = true
      · simp only [tagCase, h1, h2, if_true, if_false, Bool.false_eq_true]
        obtain ⟨ops, hops⟩ := ih (setGlyph obj.success t) false
        exact ⟨obj.success :: ops, by rw [hops, applyOps_cons]⟩
      · simp only [tagCase, h1, h2, if_false, Bool.false_eq_true]
        exact ih t f

/-- A tag without `ac:emoticon` leaves the loop over the results as it
was. -/
theorem rangeResults_of_not_emoticon :
    ∀ (rs : List returnCheckerObj) (t : GoString) (f : Bool),
      strings.Contains t "ac:emoticon".toList = false → (rangeResults rs t f).1 = t := by
  intro rs
  induction rs with
  | nil => intro t f _; rfl
  | cons obj rs ih =>
    intro t f he
    rw [rangeResults_cons]
    by_cases h1 : strings.Contains t obj.url = true
    · simp only [tagCase, h1, if_true]
      exact ih t true he
    · simp only [tagCase, h1, he, if_false, Bool.false_and, Bool.false_eq_true]
      exact ih t f he

theorem rangeResults_isSegment (rs : List returnCheckerObj) (body : GoString) (f : Bool)
    (h : '>' ∉ body) :
    ∃ body2 : GoString, (rangeResults rs (body ++ ['>']) f).1 = body2 ++ ['>'] ∧ '>' ∉ body2 := by
  obtain ⟨ops, hops⟩ := rangeResults_applyOps rs (body ++ ['>']) f
  exact ⟨applyOps ops body, by rw [hops, applyOps_concat], not_mem_applyOps ops body h⟩

theorem rewriteFrom_idem (rs : List returnCheckerObj)
    (hrs : ∀ obj ∈ rs, keepsGlyph obj.url = true) :
    ∀ (d tag : GoString) (f : Bool), '>' ∉ tag →
      rewriteFrom rs (rewriteFrom rs d tag f) [] f = rewriteFrom rs d tag f := by
  intro d
  induction d with
  | nil => intro tag f _; rfl
  | cons c d ih =>
    intro tag f htag
    by_cases hc : c = '>'
    · subst hc
      rw [rewriteFrom_cons_gt]
      obtain ⟨body2, hb2, hn2⟩ := rangeResults_isSegment rs tag f htag
      have h1 := rewriteFrom_segment rs
        (rewriteFrom rs d [] (rangeResults rs (tag ++ ['>']) f).2) f body2 [] hn2
      rw [List.nil_append, ← hb2] at h1
      have h2 : (rangeResults rs (tag ++ ['>']) f).1 ++
          rewriteFrom rs d [] (rangeResults rs (tag ++ ['>']) f).2 =
          body2 ++ '>' :: rewriteFrom rs d [] (rangeResults rs (tag ++ ['>']) f).2 := by
        rw [hb2]; simp
      rw [h2, h1, rangeResults_idem rs hrs, ih [] _ (by simp)]
      exact h2
    · rw [rewriteFrom_cons_ne rs c hc]
      apply ih
      intro h
      rcases List.mem_append.1 h with h | h
      · exact htag h
      · exact hc (List.mem_singleton.1 h).symm

theorem isSegment_iff (s : GoString) :
    isSegment s = true ↔ ∃ body : GoString, s = body ++ ['>'] ∧ '>' ∉ body := by
  constructor
  · intro h
    rcases List.eq_nil_or_concat s with hs | ⟨body, c, hs⟩
    · subst hs; simp [isSegment] at h
    · subst hs
      rw [List.concat_eq_append] at h ⊢
      simp [isSegment] at h
      exact ⟨body, by rw [h.1], h.2⟩
  · rintro ⟨body, rfl, hb⟩
    simp [isSegment, hb]

/-! ### The byte loop, tag by tag -/

theorem rewriteFrom_segments (rs : List returnCheckerObj) :
    ∀ (segs : List GoString), (∀ s ∈ segs, isSegment s = true) → ∀ f : Bool,
      ∃ outs : List GoString, rewriteFrom rs segs.flatten [] f = outs.flatten ∧
        List.Forall₂ (fun s o =>
          (strings.Contains s "ac:emoticon".toList = false → o = s) ∧
            ∃ ops : List Bool, o = applyOps ops s) segs outs := by
  intro segs
  induction segs with
  | nil => intro _ f; exact ⟨[], rfl, List.Forall₂.nil⟩
  | cons s segs ih =>
    intro h f
    obtain ⟨body, hs, hb⟩ := (isSegment_iff s).1 (h s (List.mem_cons_self _ _))
    obtain ⟨outs, ho, hf⟩ := ih (fun t ht => h t (List.mem_cons_of_mem _ ht))
      (rangeResults rs s f).2
    refine ⟨(rangeResults rs s f).1 :: outs, ?_, List.Forall₂.cons ⟨?_, ?_⟩ hf⟩
    · have h1 := rewriteFrom_segment rs segs.flatten f body [] hb
      rw [List.nil_append, ← hs] at h1
      rw [List.flatten_cons, List.flatten_cons, ← ho, ← h1, hs]
      simp
    · exact rangeResults_of_not_emoticon rs s f
    · exact rangeResults_applyOps rs s f

/-- Bytes behind the last `>` never reach the output. -/
theorem rewriteFrom_no_gt (rs : List returnCheckerObj) :
    ∀ (rest tag : GoString) (f : Bool), '>' ∉ rest → rewriteFrom rs rest tag f = [] := by
  intro rest
  induction rest with
  | nil => intro tag f _; rfl
  | cons c rest ih =>
    intro tag f h
    have hc : c ≠ '>' := fun e => h (e ▸ List.mem_cons_self _ _)
    rw [rewriteFrom_cons_ne rs c hc]
    exact ih _ f (fun e => h (List.mem_cons_of_mem _ e))

/-! ### `checkRedirect` -/

theorem strings.HasSuffix_iff (s suffix : GoString) :
    strings.HasSuffix s suffix = true ↔ suffix <:+ s := by
  simp only [strings.HasSuffix, Bool.and_eq_true, decide_eq_true_eq, beq_iff_eq]
  constructor
  · rintro ⟨_, h⟩
    exact List.suffix_iff_eq_drop.2 h.symm
  · intro h
    exact ⟨h.length_le, (List.suffix_iff_eq_drop.1 h).symm⟩

/-- On every path `checkRedirect` returns a record that carries the URL it was
called with. -/
theorem checkRedirect_url (HostURL : GoString) (httpGet : GoString → HttpOutcome)
    (url : GoString) : (checkRedirect HostURL httpGet url).url = url := by
  simp only [checkRedirect]
  generalize httpGet (HostURL ++ url) = o
  cases o with
  | getError err => rfl
  | readError _ err => rfl
  | body _ b => dsimp only; split_ifs <;> rfl

/-! ### `iterateResponse` -/

theorem iterateLoop_nil (acc : List GoString) : iterateLoop [] acc = acc := by
  rw [iterateLoop]

theorem iterateLoop_skip (t : Token) (z : List Token) (acc : List GoString)
    (h : ¬ (t.Data = "td".toList ∧ t.tt ≠ TokenType.EndTagToken)) :
    iterateLoop (t :: z) acc = iterateLoop z acc := by
  rw [iterateLoop.eq_def]; simp only [h, if_false]

theorem iterateLoop_gate_end (t : Token) (acc : List GoString)
    (h : t.Data = "td".toList ∧ t.tt ≠ TokenType.EndTagToken) :
    iterateLoop [t] acc = acc := by
  rw [iterateLoop.eq_def]; simp only [h, if_true, and_self, not_false_eq_true, ne_eq]

theorem iterateLoop_gate_other (t t2 : Token) (z : List Token) (acc : List GoString)
    (h : t.Data = "td".toList ∧ t.tt ≠ TokenType.EndTagToken) (h2 : t2.Data ≠ "a".toList) :
    iterateLoop (t :: t2 :: z) acc = iterateLoop z acc := by
  rw [iterateLoop.eq_def]; simp only [h, h2, if_true, if_false, and_self, not_false_eq_true, ne_eq]

theorem iterateLoop_gate_a_end (t t2 : Token) (acc : List GoString)
    (h : t.Data = "td".toList ∧ t.tt ≠ TokenType.EndTagToken) (h2 : t2.Data = "a".toList) :
    iterateLoop [t, t2] acc = acc ++ [[]] := by
  rw [iterateLoop.eq_def]; simp only [h, h2, if_true, if_false, and_self, not_false_eq_true, ne_eq]

theorem iterateLoop_gate_a (t t2 t3 : Token) (z : List Token) (acc : List GoString)
    (h : t.Data = "td".toList ∧ t.tt ≠ TokenType.EndTagToken) (h2 : t2.Data = "a".toList) :
    iterateLoop (t :: t2 :: t3 :: z) acc = iterateLoop z (acc ++ [t3.Data]) := by
  rw [iterateLoop.eq_def]; simp only [h, h2, if_true, if_false, and_self, not_false_eq_true, ne_eq]

theorem iterateLoop_mem :
    ∀ (n : Nat) (z : List Token), z.length ≤ n → ∀ (urlList : List GoString) (u : GoString),
      u ∈ iterateLoop z urlList →
        u ∈ urlList ∨ ∃ (pre : List Token) (t1 t2 : Token) (post : List Token),
          z = pre ++ t1 :: t2 :: post ∧
            (t1.Data = "td".toList ∧ t1.tt ≠ TokenType.EndTagToken) ∧
              t2.Data = "a".toList ∧ u = nextData post := by
  intro n
  induction n with
  | zero =>
    intro z hz acc u hu
    have : z = [] := List.eq_nil_of_length_eq_zero (Nat.le_zero.1 hz)
    subst this
    rw [iterateLoop_nil] at hu
    exact Or.inl hu
  | succ n ih =>
    intro z hz acc u hu
    match z, hz, hu with
    | [], _, hu =>
      rw [iterateLoop_nil] at hu
      exact Or.inl hu
    | t :: z, hz, hu =>
      by_cases hg : t.Data = "td".toList ∧ t.tt ≠ TokenType.EndTagToken
      · match z, hz, hu with
        | [], _, hu =>
          rw [iterateLoop_gate_end t acc hg] at hu
          exact Or.inl hu
        | t2 :: z2, hz, hu =>
          by_cases ha : t2.Data = "a".toList
          · match z2, hz, hu with
            | [], _, hu =>
              rw [iterateLoop_gate_a_end t t2 acc hg ha] at hu
              rcases List.mem_append.1 hu with hu | hu
              · exact Or.inl hu
              · exact Or.inr ⟨[], t, t2, [], rfl, hg, ha, List.mem_singleton.1 hu⟩
            | t3 :: z3, hz, hu =>
              rw [iterateLoop_gate_a t t2 t3 z3 acc hg ha] at hu
              have hlen : z3.length ≤ n := by
                simp only [List.length_cons] at hz; omega
              rcases ih z3 hlen _ u hu with h1 | ⟨pre, t1, t2b, post, hz3, h1, h2, h3⟩
              · rcases List.mem_append.1 h1 with h1 | h1
                · exact Or.inl h1
                · exact Or.inr ⟨[], t, t2, t3 :: z3, rfl, hg, ha, List.mem_singleton.1 h1⟩
              · exact Or.inr ⟨t :: t2 :: t3 :: pre, t1, t2b, post, by rw [hz3]; rfl, h1, h2, h3⟩
          · rw [iterateLoop_gate_other t t2 z2 acc hg ha] at hu
            have hlen : z2.length ≤ n := by
              simp only [List.length_cons] at hz; omega
            rcases ih z2 hlen _ u hu with h1 | ⟨pre, t1, t2b, post, hz2, h1, h2, h3⟩
            · exact Or.inl h1
            · exact Or.inr ⟨t :: t2 :: pre, t1, t2b, post, by rw [hz2]; rfl, h1, h2, h3⟩
      · rw [iterateLoop_skip t z acc hg] at hu
        have hlen : z.length ≤ n := by
          simp only [List.length_cons] at hz; omega
        rcases ih z hlen _ u hu with h1 | ⟨pre, t1, t2b, post, hz2, h1, h2, h3⟩
        · exact Or.inl h1
        · exact Or.inr ⟨t :: pre, t1, t2b, post, by rw [hz2]; rfl, h1, h2, h3⟩

theorem iterateLoop_inert :
    ∀ (filler : List Token), inert filler = true → ∀ (z : List Token) (urlList : List GoString),
      iterateLoop (filler ++ z) urlList = iterateLoop z urlList := by
  intro filler
  induction filler with
  | nil => intro _ z acc; rfl
  | cons t filler ih =>
    intro h z acc
    simp only [inert, List.all_cons, Bool.and_eq_true, Bool.not_eq_true',
      decide_eq_false_iff_not] at h
    have h2 : inert filler = true := h.2
    rw [List.cons_append, iterateLoop_skip t _ acc h.1]
    exact ih h2 z acc

theorem iterateLoop_cell (url : GoString) (hurl : url ≠ []) (z : List Token)
    (urlList : List GoString) :
    iterateLoop (cell url ++ z) urlList = iterateLoop z (urlList ++ [url]) := by
  simp only [cell, hurl, if_false, List.cons_append, List.nil_append, List.append_assoc]
  rw [iterateLoop_gate_a _ _ _ _ _ (by decide) rfl, iterateLoop_skip _ _ _ (by decide),
    iterateLoop_skip _ _ _ (by decide)]

theorem iterateLoop_table :
    ∀ (rows : List (List Token × GoString)), (∀ r ∈ rows, inert r.1 = true) →
      (∀ r ∈ rows, r.2 ≠ []) →
      ∀ (tail : List Token), inert tail = true → ∀ urlList : List GoString,
        iterateLoop (table rows tail) urlList = urlList ++ rows.map Prod.snd := by
  intro rows
  induction rows with
  | nil =>
    intro _ _ tail ht acc
    have := iterateLoop_inert tail ht [] acc
    simpa [table, iterateLoop_nil] using this
  | cons r rows ih =>
    intro h hne tail ht acc
    have e : table (r :: rows) tail = r.1 ++ (cell r.2 ++ table rows tail) := by
      simp [table]
    rw [e, iterateLoop_inert r.1 (h r (List.mem_cons_self _ _)),
      iterateLoop_cell r.2 (hne r (List.mem_cons_self _ _)),
      ih (fun q hq => h q (List.mem_cons_of_mem _ hq))
        (fun q hq => hne q (List.mem_cons_of_mem _ hq)) tail ht]
    simp

/-- For the empty anchor `<td><a></a></td>` the token behind the anchor tag is
its end tag, and the loop takes the name of that tag for the URL. -/
theorem iterateResponse_empty_anchor : iterateResponse (cell []) = ["a".toList] := by
  decide

theorem rewriteFrom_append_no_gt (rs : List returnCheckerObj) (rest : GoString)
    (h : '>' ∉ rest) :
    ∀ (d tag : GoString) (f : Bool),
      rewriteFrom rs (d ++ rest) tag f = rewriteFrom rs d tag f := by
  intro d
  induction d with
  | nil => intro tag f; exact rewriteFrom_no_gt rs rest tag f h
  | cons c d ih =>
    intro tag f
    by_cases hc : c = '>'
    · subst hc
      rw [List.cons_append, rewriteFrom_cons_gt, rewriteFrom_cons_gt, ih]
    · rw [List.cons_append, rewriteFrom_cons_ne rs c hc, rewriteFrom_cons_ne rs c hc, ih]

/-- The bytes behind the last `>` of the document are not written back: the
loop appends `singleTag` to `confluenceReturnData` only when a `>` arrives. -/
theorem rewrite_append_no_gt (d rest : GoString) (rs : List returnCheckerObj)
    (h : '>' ∉ rest) : rewrite (d ++ rest) rs = rewrite d rs :=
  rewriteFrom_append_no_gt rs rest h d [] false

theorem rangeResults_no_url :
    ∀ (rs : List returnCheckerObj) (t : GoString),
      (∀ obj ∈ rs, strings.Contains t obj.url = false) → rangeResults rs t false = (t, false) := by
  intro rs
  induction rs with
  | nil => intro t _; rfl
  | cons obj rs ih =>
    intro t h
    have h1 : strings.Contains t obj.url = false := h obj (List.mem_cons_self _ _)
    rw [rangeResults_cons]
    simp only [tagCase, h1, Bool.and_false, if_false, Bool.false_eq_true]
    exact ih t (fun o ho => h o (List.mem_cons_of_mem _ ho))

/-! ## The properties of the specification -/

set_option maxRecDepth 100000

/-- C1: on the two-row document whose first row holds `/ok` with glyph `cross`
and whose second row holds `/broken` with glyph `tick`, and the results
`/ok` succeeded, `/broken` failed, the rewrite loop gives both glyphs the value
asked for by the result that was collected first: both `tick` when `/ok` came
first, both `cross` when `/broken` came first.  In neither order is the output
the expected document, first glyph `tick` and second glyph `cross`. -/
theorem rewrite_two_rows_first_result_wins :
    rewrite (twoRows "cross".toList "tick".toList)
        [⟨"/ok".toList, [], true⟩, ⟨"/broken".toList, [], false⟩]
      = twoRows "tick".toList "tick".toList ∧
    rewrite (twoRows "cross".toList "tick".toList)
        [⟨"/broken".toList, [], false⟩, ⟨"/ok".toList, [], true⟩]
      = twoRows "cross".toList "cross".toList ∧
    twoRows "tick".toList "tick".toList ≠ twoRows "tick".toList "cross".toList ∧
    twoRows "cross".toList "cross".toList ≠ twoRows "tick".toList "cross".toList := by
  decide

/-- What the rewrite loop does keep: for a document that is a sequence of
complete segments, each ending at its only `>`, the output is the
concatenation, in order, of one output segment per input segment; a segment
that does not contain `ac:emoticon` is output unchanged, and every other
segment is output after some replacements of all `cross` by `tick` or of all
`tick` by `cross` made on the whole segment. -/
theorem rewrite_copies_segments (returnObjSlice : List returnCheckerObj)
    (segs : List GoString) (h : ∀ s ∈ segs, isSegment s = true) :
    ∃ outs : List GoString, rewrite segs.flatten returnObjSlice = outs.flatten ∧
      List.Forall₂ (fun s o =>
        (strings.Contains s "ac:emoticon".toList = false → o = s) ∧
          ∃ ops : List Bool, o = applyOps ops s) segs outs :=
  rewriteFrom_segments returnObjSlice segs h false

/-- C2: both pages hold the one link `/x`, which succeeded.  On the first the
bytes ` checked` stand behind the last `>`: they are outside every tag and are
missing from the output, which is a proper start of what the claim asks for.
On the second the text `cross` stands in front of the glyph tag, outside of
it, and is rewritten to `tick` together with the tag. -/
theorem rewrite_loses_and_alters_text :
    rewrite "<td><a>/x</a></td><td><ac:emoticon ac:name=\"cross\"/></td> checked".toList
        [⟨"/x".toList, [], true⟩]
      = "<td><a>/x</a></td><td><ac:emoticon ac:name=\"tick\"/></td>".toList ∧
    rewrite "<td><a>/x</a></td>cross<ac:emoticon ac:name=\"cross\"/>".toList
        [⟨"/x".toList, [], true⟩]
      = "<td><a>/x</a></td>tick<ac:emoticon ac:name=\"tick\"/>".toList := by
  decide

/-- C3 (counterexample): a body whose `wsdl:definitions` element carries an
attribute does not contain the literal `<wsdl:definitions>`, yet for a URL
ending in `?wsdl` the check succeeds and the message is the body. -/
theorem checkRedirect_wsdl_with_attribute :
    strings.HasSuffix "/svc?wsdl".toList "?wsdl".toList = true ∧
    strings.Contains "<wsdl:definitions name=\"svc\"></wsdl:definitions>".toList
        "<wsdl:definitions>".toList = false ∧
    checkRedirect "http://host".toList
        (fun _ => HttpOutcome.body 200
          "<wsdl:definitions name=\"svc\"></wsdl:definitions>".toList)
        "/svc?wsdl".toList
      = ⟨"/svc?wsdl".toList, "<wsdl:definitions name=\"svc\"></wsdl:definitions>".toList,
          true⟩ := by
  decide

/-- C3 (amended): for a URL ending in `?wsdl` whose body was fetched and read
without an error and does not contain `<wsdl:definitions` (the start of the
tag, without the closing bracket), `checkRedirect` returns the URL with
`success = false` and the fixed message, whatever the status code. -/
theorem checkRedirect_wsdl_rule (HostURL url : GoString) (httpGet : GoString → HttpOutcome)
    (statusCode : Nat) (bodyString : GoString)
    (hs : strings.HasSuffix url "?wsdl".toList = true)
    (hget : httpGet (HostURL ++ url) = HttpOutcome.body statusCode bodyString)
    (hb : strings.Contains bodyString "<wsdl:definitions".toList = false) :
    checkRedirect HostURL httpGet url =
      ⟨url, "URL was ending with ?wsdl but did not contain <wsdl:definition!".toList, false⟩ := by
  have hfull : strings.HasSuffix (HostURL ++ url) "?wsdl".toList = true := by
    rw [strings.HasSuffix_iff] at hs ⊢
    exact hs.trans (List.suffix_append _ _)
  simp only [checkRedirect, hget, hfull, hb, if_true, Bool.not_false]

/-- C3 (witness): the amended claim at a 200 response with an HTML body. -/
theorem checkRedirect_wsdl_rule_witness :
    strings.HasSuffix "/svc?wsdl".toList "?wsdl".toList = true ∧
    strings.Contains "<html></html>".toList "<wsdl:definitions".toList = false ∧
    checkRedirect "http://host".toList (fun _ => HttpOutcome.body 200 "<html></html>".toList)
        "/svc?wsdl".toList =
      ⟨"/svc?wsdl".toList,
        "URL was ending with ?wsdl but did not contain <wsdl:definition!".toList, false⟩ :=
  ⟨by decide, by decide,
    checkRedirect_wsdl_rule "http://host".toList "/svc?wsdl".toList
      (fun _ => HttpOutcome.body 200 "<html></html>".toList) 200 "<html></html>".toList
      (by decide) rfl (by decide)⟩

/-- C4 (counterexample): the cell `<td> <a>/x</a></td>` contains exactly one
anchor, behind a blank, and `iterateResponse` returns no URL for it. -/
theorem iterateResponse_misses_anchor :
    iterateResponse
      [⟨TokenType.StartTagToken, "td".toList⟩, ⟨TokenType.TextToken, " ".toList⟩,
        ⟨TokenType.StartTagToken, "a".toList⟩, ⟨TokenType.TextToken, "/x".toList⟩,
        ⟨TokenType.EndTagToken, "a".toList⟩, ⟨TokenType.EndTagToken, "td".toList⟩] = [] := by
  decide

/-- C4 (amended): for a document whose table cells each are a `td` start tag
directly followed by an `a` start tag directly followed by the non-empty text
of the URL, with between and behind the cells only tokens that are not a `td`
other than an end tag, `iterateResponse` returns exactly the URLs of the cells
in document order, duplicates kept and nothing added. -/
theorem iterateResponse_table (rows : List (List Token × GoString)) (tail : List Token)
    (hrows : ∀ r ∈ rows, inert r.1 = true) (hurl : ∀ r ∈ rows, r.2 ≠ [])
    (htail : inert tail = true) :
    iterateResponse (table rows tail) = rows.map Prod.snd := by
  simpa [iterateResponse] using iterateLoop_table rows hrows hurl tail htail []

/-- C4 (witness): the amended claim at a table of three cells, two of them with
the same URL, inside `tr` tags. -/
theorem iterateResponse_table_witness :
    (∀ r ∈ [([⟨TokenType.StartTagToken, "tr".toList⟩], "/a".toList),
        (([] : List Token), "/b".toList),
        ([⟨TokenType.EndTagToken, "tr".toList⟩, ⟨TokenType.StartTagToken, "tr".toList⟩],
          "/a".toList)], inert r.1 = true) ∧
    (∀ r ∈ [([⟨TokenType.StartTagToken, "tr".toList⟩], "/a".toList),
        (([] : List Token), "/b".toList),
        ([⟨TokenType.EndTagToken, "tr".toList⟩, ⟨TokenType.StartTagToken, "tr".toList⟩],
          "/a".toList)], r.2 ≠ []) ∧
    inert [⟨TokenType.EndTagToken, "tr".toList⟩] = true ∧
    iterateResponse (table [([⟨TokenType.StartTagToken, "tr".toList⟩], "/a".toList),
        (([] : List Token), "/b".toList),
        ([⟨TokenType.EndTagToken, "tr".toList⟩, ⟨TokenType.StartTagToken, "tr".toList⟩],
          "/a".toList)] [⟨TokenType.EndTagToken, "tr".toList⟩])
      = ["/a".toList, "/b".toList, "/a".toList] :=
  ⟨by decide, by decide, by decide,
    iterateResponse_table _ _ (by decide) (by decide) (by decide)⟩

/-- C5 (counterexample): the page holds one cell with the link `tick`, so the
result list is the one result for `tick`.  The first pass turns the first glyph
to `tick`; on the second pass that glyph tag contains the URL and takes the
first case of the switch, the scope stays open, and the second glyph is
rewritten as well. -/
theorem rewrite_not_idempotent :
    rewrite
        (rewrite
          "<td><a>tick</a></td><ac:emoticon ac:name=\"cross\"/><ac:emoticon ac:name=\"cross\"/>".toList
          [⟨"tick".toList, [], true⟩])
        [⟨"tick".toList, [], true⟩]
      = "<td><a>tick</a></td><ac:emoticon ac:name=\"tick\"/><ac:emoticon ac:name=\"tick\"/>".toList ∧
    rewrite
        "<td><a>tick</a></td><ac:emoticon ac:name=\"cross\"/><ac:emoticon ac:name=\"cross\"/>".toList
        [⟨"tick".toList, [], true⟩]
      = "<td><a>tick</a></td><ac:emoticon ac:name=\"tick\"/><ac:emoticon ac:name=\"cross\"/>".toList ∧
    rewrite
        (rewrite
          "<td><a>tick</a></td><ac:emoticon ac:name=\"cross\"/><ac:emoticon ac:name=\"cross\"/>".toList
          [⟨"tick".toList, [], true⟩])
        [⟨"tick".toList, [], true⟩]
      ≠ rewrite
        "<td><a>tick</a></td><ac:emoticon ac:name=\"cross\"/><ac:emoticon ac:name=\"cross\"/>".toList
        [⟨"tick".toList, [], true⟩] := by
  decide

/-- C5 (amended): for every document and every result list each of whose URLs
is empty or cannot overlap an occurrence of `cross` or of `tick`, applying the
rewrite loop to its own output with the same results changes nothing. -/
theorem rewrite_idempotent (d : GoString) (returnObjSlice : List returnCheckerObj)
    (h : ∀ obj ∈ returnObjSlice, keepsGlyph obj.url = true) :
    rewrite (rewrite d returnObjSlice) returnObjSlice = rewrite d returnObjSlice :=
  rewriteFrom_idem returnObjSlice h d [] false (by simp)

/-- C5 (witness): the amended claim at the two-row document and the results
for `/ok` and `/broken`. -/
theorem rewrite_idempotent_witness :
    (∀ obj ∈ [(⟨"/ok".toList, [], true⟩ : returnCheckerObj), ⟨"/broken".toList, [], false⟩],
        keepsGlyph obj.url = true) ∧
    rewrite (rewrite (twoRows "cross".toList "tick".toList)
        [⟨"/ok".toList, [], true⟩, ⟨"/broken".toList, [], false⟩])
        [⟨"/ok".toList, [], true⟩, ⟨"/broken".toList, [], false⟩]
      = rewrite (twoRows "cross".toList "tick".toList)
        [⟨"/ok".toList, [], true⟩, ⟨"/broken".toList, [], false⟩] :=
  ⟨by decide, rewrite_idempotent _ _ (by decide)⟩

/-- C6: the page starts with the cell of `/foo`, holds the cell of `/bar`
behind it and then two glyph tags with `cross`; its links are `/foo` and
`/bar`, and `/foo` succeeded, `/bar` failed.  With the result for `/bar`
collected first the rewrite loop returns the page unchanged: the first glyph
tag is rewritten for the failed `/bar` and keeps `cross`.  Only with the
result for `/foo` collected first does the first glyph become `tick`. -/
theorem rewrite_scope_uses_first_result :
    rewrite
        "<td><a>/foo</a></td><td><a>/bar</a></td><ac:emoticon ac:name=\"cross\"/><ac:emoticon ac:name=\"cross\"/>".toList
        [⟨"/bar".toList, [], false⟩, ⟨"/foo".toList, [], true⟩]
      = "<td><a>/foo</a></td><td><a>/bar</a></td><ac:emoticon ac:name=\"cross\"/><ac:emoticon ac:name=\"cross\"/>".toList ∧
    rewrite
        "<td><a>/foo</a></td><td><a>/bar</a></td><ac:emoticon ac:name=\"cross\"/><ac:emoticon ac:name=\"cross\"/>".toList
        [⟨"/foo".toList, [], true⟩, ⟨"/bar".toList, [], false⟩]
      = "<td><a>/foo</a></td><td><a>/bar</a></td><ac:emoticon ac:name=\"tick\"/><ac:emoticon ac:name=\"cross\"/>".toList := by
  decide

/-- C8: on the page of two rows, for `/ok` and for `/broken`, both with glyph
`cross`, the two result lists are permutations of each other and the rewrite
loop returns different documents for them: both glyphs become `tick` when the
result for `/ok` was collected first, and both stay `cross` when the result
for `/broken` was. -/
theorem rewrite_depends_on_order :
    List.Perm [(⟨"/ok".toList, [], true⟩ : returnCheckerObj), ⟨"/broken".toList, [], false⟩]
      [⟨"/broken".toList, [], false⟩, ⟨"/ok".toList, [], true⟩] ∧
    rewrite (twoRows "cross".toList "cross".toList)
        [⟨"/ok".toList, [], true⟩, ⟨"/broken".toList, [], false⟩]
      = twoRows "tick".toList "tick".toList ∧
    rewrite (twoRows "cross".toList "cross".toList)
        [⟨"/broken".toList, [], false⟩, ⟨"/ok".toList, [], true⟩]
      = twoRows "cross".toList "cross".toList ∧
    rewrite (twoRows "cross".toList "cross".toList)
        [⟨"/ok".toList, [], true⟩, ⟨"/broken".toList, [], false⟩]
      ≠ rewrite (twoRows "cross".toList "cross".toList)
        [⟨"/broken".toList, [], false⟩, ⟨"/ok".toList, [], true⟩] :=
  ⟨List.Perm.swap _ _ _, by decide, by decide, by decide⟩

/-- C9 (counterexample): a text token `td` followed by the end tag `</a>` and
a text makes `iterateResponse` emit that text, in a token stream without any
start tag. -/
theorem iterateResponse_emits_without_start_tag :
    iterateResponse
        [⟨TokenType.TextToken, "td".toList⟩, ⟨TokenType.EndTagToken, "a".toList⟩,
          ⟨TokenType.TextToken, "/x".toList⟩] = ["/x".toList] ∧
    ∀ t ∈ [(⟨TokenType.TextToken, "td".toList⟩ : Token), ⟨TokenType.EndTagToken, "a".toList⟩,
          ⟨TokenType.TextToken, "/x".toList⟩], t.tt ≠ TokenType.StartTagToken := by
  decide

/-- C9 (amended): every URL that `iterateResponse` emits comes from a token
with data `td` that is not an end tag, directly followed by a token with data
`a` of any type, and is the data of the one token behind these two, or empty
when the input ends there; a token stream without such a pair emits no URL. -/
theorem iterateResponse_gate (z : List Token) (u : GoString) (h : u ∈ iterateResponse z) :
    ∃ (pre : List Token) (t1 t2 : Token) (post : List Token),
      z = pre ++ t1 :: t2 :: post ∧
        (t1.Data = "td".toList ∧ t1.tt ≠ TokenType.EndTagToken) ∧
          t2.Data = "a".toList ∧ u = nextData post := by
  rcases iterateLoop_mem z.length z (Nat.le_refl _) [] u h with h1 | h1
  · simp at h1
  · exact h1

/-- C9 (witness): the amended claim at the cell `<td><a>/x</a></td>`. -/
theorem iterateResponse_gate_witness :
    "/x".toList ∈ iterateResponse (cell "/x".toList) ∧
    ∃ (pre : List Token) (t1 t2 : Token) (post : List Token),
      cell "/x".toList = pre ++ t1 :: t2 :: post ∧
        (t1.Data = "td".toList ∧ t1.tt ≠ TokenType.EndTagToken) ∧
          t2.Data = "a".toList ∧ "/x".toList = nextData post :=
  ⟨by decide, iterateResponse_gate _ _ (by decide)⟩

/-- C10 (counterexample): the glyph tag contains `ac:emoticon` and none of the
three URLs and the flag is set; the first result turns `cross` to `tick`, the
tag then contains the second URL, `tick`, which sets the flag again, and the
failed third result turns the glyph back: the tag leaves the loop as it
came, not rewritten for the first result. -/
theorem rangeResults_later_result_decides :
    strings.Contains "<ac:emoticon ac:name=\"cross\"/>".toList "ac:emoticon".toList = true ∧
    (∀ obj ∈ [(⟨"/a".toList, [], true⟩ : returnCheckerObj), ⟨"tick".toList, [], false⟩,
          ⟨"/c".toList, [], false⟩],
        strings.Contains "<ac:emoticon ac:name=\"cross\"/>".toList obj.url = false) ∧
    rangeResults [⟨"/a".toList, [], true⟩, ⟨"tick".toList, [], false⟩, ⟨"/c".toList, [], false⟩]
        "<ac:emoticon ac:name=\"cross\"/>".toList true
      = ("<ac:emoticon ac:name=\"cross\"/>".toList, false) ∧
    setGlyph true "<ac:emoticon ac:name=\"cross\"/>".toList
      ≠ "<ac:emoticon ac:name=\"cross\"/>".toList := by
  decide

/-- C10 (amended): for a non-empty result list and a segment that contains
`ac:emoticon` and none of the result URLs, and that after the replacement for
the first result still contains none of the URLs of the later results: with
the flag set the segment is rewritten for the `success` of the first result
of the list and the flag is cleared; with the flag clear the segment is
copied unchanged and the flag stays clear. -/
theorem rangeResults_first_result_decides (first : returnCheckerObj)
    (rest : List returnCheckerObj) (singleTag : GoString)
    (he : strings.Contains singleTag "ac:emoticon".toList = true)
    (hu : ∀ obj ∈ first :: rest, strings.Contains singleTag obj.url = false)
    (hu2 : ∀ obj ∈ rest,
      strings.Contains (setGlyph first.success singleTag) obj.url = false) :
    rangeResults (first :: rest) singleTag true = (setGlyph first.success singleTag, false) ∧
      rangeResults (first :: rest) singleTag false = (singleTag, false) := by
  have h1 : strings.Contains singleTag first.url = false := hu first (List.mem_cons_self _ _)
  constructor
  · rw [rangeResults_cons]
    simp only [tagCase, h1, he, Bool.and_self, if_true, if_false, Bool.false_eq_true]
    exact rangeResults_no_url rest _ hu2
  · exact rangeResults_no_url (first :: rest) singleTag hu

/-- C10 (witness): the amended claim at a glyph tag with `tick` and the
results `/broken` failed, `/ok` succeeded. -/
theorem rangeResults_first_result_decides_witness :
    strings.Contains "<ac:emoticon ac:name=\"tick\"/>".toList "ac:emoticon".toList = true ∧
    rangeResults [⟨"/broken".toList, [], false⟩, ⟨"/ok".toList, [], true⟩]
        "<ac:emoticon ac:name=\"tick\"/>".toList true
      = (setGlyph false "<ac:emoticon ac:name=\"tick\"/>".toList, false) ∧
    rangeResults [⟨"/broken".toList, [], false⟩, ⟨"/ok".toList, [], true⟩]
        "<ac:emoticon ac:name=\"tick\"/>".toList false
      = ("<ac:emoticon ac:name=\"tick\"/>".toList, false) :=
  ⟨by decide,
    rangeResults_first_result_decides ⟨"/broken".toList, [], false⟩ [⟨"/ok".toList, [], true⟩]
      "<ac:emoticon ac:name=\"tick\"/>".toList (by decide) (by decide) (by decide)⟩

end EndpointHealthCheck
